import Mathlib

/-!
Shallow embedding of `src/src/main.cpp` (ml-audio-signal-processor):
an SPSC ring buffer of fixed-size audio blocks, the PortAudio capture
callback, the bounded history FIFO, and the consumer-loop RMS / timer
logic, together with theorems about them.

Machine integers: the C++ counters `w`, `r`, `dropped` are `size_t`
(`std::atomic<size_t>`), so all counter updates and the fullness test
`w - r` are taken modulo `2^64`, written explicitly below.  Concurrent
executions of the single-producer / single-consumer ring are modelled as
arbitrary sequential interleavings of the atomic `push` / `pop`
operations.
-/

namespace AudioProc

/-- `constexpr unsigned long FRAMES_PER_BLOCK = 512` (main.cpp line 14). -/
def FRAMES_PER_BLOCK : Nat := 512

/-- `using Block = std::array<int16_t, FRAMES_PER_BLOCK>` (line 15): one audio
block, an ordered sequence of signed 16-bit samples modelled as integers. -/
abbrev Block := List Int

/-- A value-initialized `Block` (all samples zero), as produced by `Block{}`
or the value-initialization of `std::array<Block, CAP> buf{}`. -/
def blockZero : Block := List.replicate FRAMES_PER_BLOCK 0

/-- `2^64`: the modulus of `size_t` arithmetic on the index and drop counters. -/
def U64 : Nat := 2 ^ 64

/-- `static constexpr size_t CAP = 64` (line 24). -/
def spscRing.CAP : Nat := 64

/-- The state of `struct spscRing` (lines 22-60): the slot array `buf`
(64 value-initialized blocks), the ever-increasing write index `w`, read
index `r`, and the `dropped` counter, all `size_t` values. -/
structure spscRing where
  buf : List Block
  w : Nat
  r : Nat
  dropped : Nat
deriving Repr, DecidableEq

/-- The freshly constructed global `static spscRing g_rb` (line 62):
zeroed slots, `w = r = dropped = 0`. -/
def spscRing.init : spscRing :=
  ⟨List.replicate spscRing.CAP blockZero, 0, 0, 0⟩

/-- `bool spscRing::push(const Block& b)` (lines 30-44): load `wi = w`,
`ri = r`; if `wi - ri >= CAP` (computed in `size_t`, i.e. mod `2^64`)
increment `dropped` and return `false`; otherwise store `b` into
`buf[wi % CAP]`, store `wi + 1` into `w`, and return `true`. -/
def spscRing.push (s : spscRing) (b : Block) : Bool × spscRing :=
  let wi := s.w
  let ri := s.r
  if (wi + U64 - ri) % U64 ≥ spscRing.CAP then
    (false, { s with dropped := (s.dropped + 1) % U64 })
  else
    (true, { s with buf := s.buf.set (wi % spscRing.CAP) b, w := (wi + 1) % U64 })

/-- `bool spscRing::pop(Block& out)` (lines 46-59): load `ri = r`,
`wi = w`; if `wi == ri` return `false` (no mutation); otherwise read
`buf[ri % CAP]` into `out`, store `ri + 1` into `r`, and return `true`.
The popped block is returned as `some _` in place of the `out` parameter. -/
def spscRing.pop (s : spscRing) : Option Block × spscRing :=
  let ri := s.r
  let wi := s.w
  if wi = ri then
    (none, s)
  else
    (some (s.buf.getD (ri % spscRing.CAP) blockZero), { s with r := (ri + 1) % U64 })

/-- One operation on the ring: a producer `push` of a block, or a consumer
`pop`. A list of these is one sequential interleaving of the two sides. -/
inductive RingOp where
  | push : Block → RingOp
  | pop : RingOp
deriving Repr, DecidableEq

/-- Observables of running a sequence of operations: the final ring state,
the blocks accepted by successful pushes (chronological), the blocks
returned by successful pops (chronological), and the number of pushes that
found the buffer full (returned `false`). -/
structure RunResult where
  state : spscRing
  accepted : List Block
  popped : List Block
  failed : Nat
deriving Repr, DecidableEq

/-- Run a sequence of `RingOp`s against a ring state, collecting the
accepted blocks, the popped blocks and the failed-push count. -/
def runOps : List RingOp → spscRing → RunResult
  | [], s => ⟨s, [], [], 0⟩
  | RingOp.push b :: rest, s =>
    let pr := s.push b
    let rr := runOps rest pr.2
    if pr.1 then ⟨rr.state, b :: rr.accepted, rr.popped, rr.failed⟩
    else ⟨rr.state, rr.accepted, rr.popped, rr.failed + 1⟩
  | RingOp.pop :: rest, s =>
    let pr := s.pop
    let rr := runOps rest pr.2
    match pr.1 with
    | none => rr
    | some b => ⟨rr.state, rr.accepted, b :: rr.popped, rr.failed⟩

/-- The `size_t` fullness computation `wi - ri` recovers the logical lag
`W - R` whenever the lag is at most `CAP`, i.e. in every reachable state. -/
lemma wrap_sub_eq (W R : Nat) (hle : R ≤ W) (hcap : W - R ≤ spscRing.CAP) :
    (W % U64 + U64 - R % U64) % U64 = W - R := by
  have h64 : U64 = 18446744073709551616 := by norm_num [U64]
  have hc : spscRing.CAP = 64 := rfl
  rw [h64] at *
  rw [hc] at hcap
  omega

/-- The `size_t` emptiness test `wi == ri` recovers `W = R` whenever the
logical lag is at most `CAP`. -/
lemma wrap_eq_iff (W R : Nat) (hle : R ≤ W) (hcap : W - R ≤ spscRing.CAP) :
    W % U64 = R % U64 ↔ W = R := by
  have h64 : U64 = 18446744073709551616 := by norm_num [U64]
  have hc : spscRing.CAP = 64 := rfl
  rw [h64]
  rw [hc] at hcap
  omega

/-- Slot addressing: reducing mod `2^64` first does not change the slot,
since `CAP` divides `2^64`. -/
lemma wrap_slot (W : Nat) : (W % U64) % spscRing.CAP = W % spscRing.CAP := by
  have h64 : U64 = 18446744073709551616 := by norm_num [U64]
  have hc : spscRing.CAP = 64 := rfl
  rw [h64, hc]
  omega

/-- Reading a slot other than the one just written is unaffected. -/
lemma getD_set_ne (l : List Block) (m n : Nat) (b d : Block) (h : m ≠ n) :
    (l.set m b).getD n d = l.getD n d := by
  rw [List.getD_eq_getElem?_getD, List.getD_eq_getElem?_getD, List.getElem?_set_ne h]

/-- Reading the slot just written returns the written block. -/
lemma getD_set_self (l : List Block) (m : Nat) (b d : Block) (hm : m < l.length) :
    (l.set m b).getD m d = b := by
  rw [List.getD_eq_getElem?_getD, List.getElem?_set_eq_of_lt _ hm]
  rfl

/-- Extending a strict prefix by the next element of the longer list keeps it
a prefix. -/
lemma prefix_snoc_getD (pops acc : List Block) (h : pops <+: acc)
    (hlt : pops.length < acc.length) :
    pops ++ [acc.getD pops.length blockZero] <+: acc := by
  have htake := List.prefix_iff_eq_take.mp h
  have : pops ++ [acc.getD pops.length blockZero] = acc.take (pops.length + 1) := by
    rw [List.take_succ, ← htake, List.getD_eq_getElem?_getD,
      List.getElem?_eq_getElem hlt]
    rfl
  rw [this]
  exact List.take_prefix _ _

/-- The glue between a ring state and the history of the run that produced
it: `acc` is the chronological list of accepted pushes, `pops` the
chronological list of returned pops, `failed` the number of failed pushes.
The counters are the history lengths mod `2^64`, the lag is at most `CAP`,
the popped history is a prefix of the accepted history, and the slots
between `r` and `w` hold the accepted blocks not yet popped. -/
def ringInv (s : spscRing) (acc pops : List Block) (failed : Nat) : Prop :=
  s.buf.length = spscRing.CAP ∧
  pops <+: acc ∧
  acc.length ≤ pops.length + spscRing.CAP ∧
  s.w = acc.length % U64 ∧
  s.r = pops.length % U64 ∧
  s.dropped = failed % U64 ∧
  ∀ i, pops.length ≤ i → i < acc.length →
    s.buf.getD (i % spscRing.CAP) blockZero = acc.getD i blockZero

/-- The initial ring satisfies the invariant with empty histories. -/
lemma ringInv_init : ringInv spscRing.init [] [] 0 := by
  refine ⟨by simp [spscRing.init], List.nil_prefix, by simp [spscRing.CAP],
    rfl, rfl, rfl, ?_⟩
  intro i _ hi
  simp at hi

/-- A push with room: it succeeds, writes the slot `acc.length % CAP`, and
re-establishes the invariant with the block appended to the accepted
history. -/
lemma push_step_ok (s : spscRing) (acc pops : List Block) (failed : Nat) (b : Block)
    (h : ringInv s acc pops failed) (hroom : acc.length < pops.length + spscRing.CAP) :
    s.push b = (true, ⟨s.buf.set (acc.length % spscRing.CAP) b, (acc.length + 1) % U64, s.r, s.dropped⟩) ∧
    ringInv ⟨s.buf.set (acc.length % spscRing.CAP) b, (acc.length + 1) % U64, s.r, s.dropped⟩ (acc ++ [b]) pops failed := by
  obtain ⟨hlen, hpre, hlag, hw, hr, hd, hcontent⟩ := h
  have hple : pops.length ≤ acc.length := hpre.length_le
  have hsub : (s.w + U64 - s.r) % U64 = acc.length - pops.length := by
    rw [hw, hr]
    exact wrap_sub_eq _ _ hple (by omega)
  have hcond : ¬ (s.w + U64 - s.r) % U64 ≥ spscRing.CAP := by
    rw [hsub]; omega
  constructor
  · simp only [spscRing.push]
    rw [if_neg hcond, hw, wrap_slot, Nat.mod_add_mod]
  · refine ⟨by simpa using hlen, hpre.trans (acc.prefix_append [b]),
      by simp; omega, by simp, by simpa using hr, hd, ?_⟩
    intro i hi hilt
    simp only [List.length_append, List.length_cons, List.length_nil] at hilt
    rcases Nat.lt_or_ge i acc.length with hcase | hcase
    · show (s.buf.set (acc.length % spscRing.CAP) b).getD (i % spscRing.CAP) blockZero = _
      have hne : acc.length % spscRing.CAP ≠ i % spscRing.CAP := by
        have h3 : acc.length < pops.length + 64 := hroom
        show ¬ acc.length % 64 = i % 64
        omega
      rw [getD_set_ne _ _ _ _ _ hne, List.getD_append _ _ _ _ hcase]
      exact hcontent i hi hcase
    · have hieq : i = acc.length := by omega
      subst hieq
      show (s.buf.set (acc.length % spscRing.CAP) b).getD (acc.length % spscRing.CAP) blockZero = _
      have hmlt : acc.length % spscRing.CAP < s.buf.length := by
        rw [hlen]
        exact Nat.mod_lt _ (by norm_num [spscRing.CAP])
      rw [getD_set_self _ _ _ _ hmlt, List.getD_append_right _ _ _ _ (Nat.le_refl _)]
      simp

/-- A push on a full ring: it fails, increments only `dropped`, and
re-establishes the invariant with one more failed push. -/
lemma push_step_full (s : spscRing) (acc pops : List Block) (failed : Nat) (b : Block)
    (h : ringInv s acc pops failed) (hfull : acc.length = pops.length + spscRing.CAP) :
    s.push b = (false, { s with dropped := (s.dropped + 1) % U64 }) ∧
    ringInv { s with dropped := (s.dropped + 1) % U64 } acc pops (failed + 1) := by
  obtain ⟨hlen, hpre, hlag, hw, hr, hd, hcontent⟩ := h
  have hple : pops.length ≤ acc.length := hpre.length_le
  have hsub : (s.w + U64 - s.r) % U64 = acc.length - pops.length := by
    rw [hw, hr]
    exact wrap_sub_eq _ _ hple (by omega)
  have hcond : (s.w + U64 - s.r) % U64 ≥ spscRing.CAP := by
    rw [hsub]; omega
  refine ⟨by simp only [spscRing.push]; rw [if_pos hcond], ?_⟩
  refine ⟨hlen, hpre, hlag, hw, hr, ?_, hcontent⟩
  show (s.dropped + 1) % U64 = (failed + 1) % U64
  rw [hd, Nat.mod_add_mod]

/-- A pop on an empty ring: it returns nothing and leaves the state
untouched. -/
lemma pop_step_empty (s : spscRing) (acc pops : List Block) (failed : Nat)
    (h : ringInv s acc pops failed) (hempty : acc.length = pops.length) :
    s.pop = (none, s) := by
  obtain ⟨hlen, hpre, hlag, hw, hr, hd, hcontent⟩ := h
  have : s.w = s.r := by rw [hw, hr, hempty]
  simp [spscRing.pop, this]

/-- A pop on a non-empty ring: it returns the oldest not-yet-popped accepted
block, advances only `r`, and re-establishes the invariant with that block
appended to the popped history. -/
lemma pop_step_some (s : spscRing) (acc pops : List Block) (failed : Nat)
    (h : ringInv s acc pops failed) (hne : pops.length < acc.length) :
    s.pop = (some (acc.getD pops.length blockZero), ⟨s.buf, s.w, (pops.length + 1) % U64, s.dropped⟩) ∧
    ringInv ⟨s.buf, s.w, (pops.length + 1) % U64, s.dropped⟩ acc
      (pops ++ [acc.getD pops.length blockZero]) failed := by
  obtain ⟨hlen, hpre, hlag, hw, hr, hd, hcontent⟩ := h
  have hple : pops.length ≤ acc.length := hpre.length_le
  have hwr : ¬ s.w = s.r := by
    rw [hw, hr]
    intro hcontra
    have := (wrap_eq_iff acc.length pops.length hple (by omega)).mp hcontra
    omega
  constructor
  · simp only [spscRing.pop]
    rw [if_neg hwr, hr, wrap_slot, Nat.mod_add_mod]
    rw [hcontent pops.length (Nat.le_refl _) hne]
  · refine ⟨hlen, prefix_snoc_getD pops acc hpre hne, by simp; omega,
      hw, by simp, hd, ?_⟩
    intro i hi hilt
    simp only [List.length_append, List.length_cons, List.length_nil] at hi
    exact hcontent i (by omega) hilt

/-- Running any sequence of operations preserves the invariant, with the
run's observables appended to the histories. -/
lemma runOps_inv (ops : List RingOp) (s : spscRing) (acc pops : List Block)
    (failed : Nat) (h : ringInv s acc pops failed) :
    ringInv (runOps ops s).state (acc ++ (runOps ops s).accepted)
      (pops ++ (runOps ops s).popped) (failed + (runOps ops s).failed) := by
  induction ops generalizing s acc pops failed with
  | nil => simpa [runOps] using h
  | cons op rest ih =>
    cases op with
    | push b =>
      have hlag : acc.length ≤ pops.length + spscRing.CAP := h.2.2.1
      rcases Nat.lt_or_ge acc.length (pops.length + spscRing.CAP) with hroom | hge
      · obtain ⟨hpush, hinv'⟩ := push_step_ok s acc pops failed b h hroom
        have ihres := ih _ (acc ++ [b]) pops failed hinv'
        simp only [runOps, hpush]
        simpa using ihres
      · have hfull : acc.length = pops.length + spscRing.CAP := by omega
        obtain ⟨hpush, hinv'⟩ := push_step_full s acc pops failed b h hfull
        have ihres := ih _ acc pops (failed + 1) hinv'
        simp only [runOps, hpush]
        rw [Nat.add_assoc, Nat.add_comm 1] at ihres
        simpa using ihres
    | pop =>
      have hple : pops.length ≤ acc.length := h.2.1.length_le
      rcases Nat.lt_or_ge pops.length acc.length with hlt | hge
      · obtain ⟨hpop, hinv'⟩ := pop_step_some s acc pops failed h hlt
        have ihres := ih _ acc (pops ++ [acc.getD pops.length blockZero]) failed hinv'
        simp only [runOps, hpop]
        simpa using ihres
      · have hempty : acc.length = pops.length := by omega
        have hpop := pop_step_empty s acc pops failed h hempty
        have ihres := ih _ acc pops failed h
        simpa only [runOps, hpop] using ihres

/-- C1: for every sequence of push and pop operations on the SPSC ring
buffer, the blocks returned by successful pops are exactly an initial
segment of the blocks accepted by successful pushes: bit-identical
(value equality of the sample sequences), in exactly the order the pushes
occurred, and no pushed block is ever returned twice. -/
theorem ring_pops_are_pushes_in_order (ops : List RingOp) :
    (runOps ops spscRing.init).popped <+: (runOps ops spscRing.init).accepted := by
  have h := runOps_inv ops spscRing.init [] [] 0 ringInv_init
  simpa using h.2.1

/-- C2: a push that finds the ring full (`w - r` equals `CAP` at call time)
returns `false`, increments the dropped counter by exactly one, and changes
nothing else (`w`, `r` and every slot are untouched); and over any sequence
of operations from the initial ring, the dropped counter equals the number
of pushes that found the buffer full (as a `size_t`, i.e. mod `2^64`). -/
theorem ring_push_full_drops :
    (∀ (s : spscRing) (b : Block), (s.w + U64 - s.r) % U64 = spscRing.CAP →
      s.push b = (false, { s with dropped := (s.dropped + 1) % U64 })) ∧
    (∀ ops : List RingOp,
      (runOps ops spscRing.init).state.dropped = (runOps ops spscRing.init).failed % U64) := by
  constructor
  · intro s b hfull
    have hcond : (s.w + U64 - s.r) % U64 ≥ spscRing.CAP := by rw [hfull]
    simp only [spscRing.push]
    rw [if_pos hcond]
  · intro ops
    have h := runOps_inv ops spscRing.init [] [] 0 ringInv_init
    simpa using h.2.2.2.2.2.1

/-- Witness for C2: a concrete full ring (`w = 64`, `r = 0`); the push
fails and only increments `dropped`. -/
theorem ring_push_full_drops_witness :
    (spscRing.mk [] 64 0 0).push blockZero
      = (false, spscRing.mk [] 64 0 ((0 + 1) % U64)) :=
  ring_push_full_drops.1 (spscRing.mk [] 64 0 0) blockZero (by decide)

/-- C3: a pop on an empty ring (`w = r`) returns "no data" and leaves the
whole state — both indices, the dropped counter and every slot — unchanged. -/
theorem ring_pop_empty_id (s : spscRing) (h : s.w = s.r) : s.pop = (none, s) := by
  simp only [spscRing.pop]
  rw [if_pos h]

/-- Witness for C3: popping the freshly constructed ring returns nothing
and is the identity on the state. -/
theorem ring_pop_empty_id_witness : spscRing.init.pop = (none, spscRing.init) :=
  ring_pop_empty_id spscRing.init rfl

/-! ## Bounded history buffer (`g_fifo`)

`static std::deque<float> g_fifo` (line 18) and its maintenance in the
consumer loop (lines 172-182): each popped block's normalized samples are
appended with `push_back`, then `while (g_fifo.size() > FIFO_MAX)
g_fifo.pop_front();` evicts from the front. The element values are opaque
to this bookkeeping, so it is stated for an arbitrary element type. -/

/-- `static constexpr size_t FIFO_MAX = 44100 * 3` (line 19). -/
def FIFO_MAX : Nat := 44100 * 3

/-- The eviction loop `while (size > cap) pop_front()` on a deque,
one front element at a time. -/
def evictFront (cap : Nat) : List α → List α
  | [] => []
  | x :: t => if (x :: t).length > cap then evictFront cap t else x :: t

/-- One append batch: `push_back` every sample of the batch at the back,
then run the front-eviction loop. -/
def fifoAppendBlock (cap : Nat) (fifo : List α) (samples : List α) : List α :=
  evictFront cap (fifo ++ samples)

/-- A sequence of append batches, each followed by its eviction pass. -/
def appendBatches (cap : Nat) (batches : List (List α)) (fifo : List α) : List α :=
  batches.foldl (fifoAppendBlock cap) fifo

/-- The eviction loop keeps exactly the trailing `cap` elements. -/
lemma evictFront_eq_drop (cap : Nat) (l : List α) :
    evictFront cap l = l.drop (l.length - cap) := by
  induction l with
  | nil => simp [evictFront]
  | cons x t ih =>
    by_cases hlen : (x :: t).length > cap
    · rw [evictFront, if_pos hlen, ih]
      have hstep : (x :: t).length - cap = (t.length - cap) + 1 := by
        simp only [List.length_cons] at hlen ⊢
        omega
      rw [hstep, List.drop_succ_cons]
    · rw [evictFront, if_neg hlen]
      have hzero : (x :: t).length - cap = 0 := by
        simp only [List.length_cons] at hlen ⊢
        omega
      rw [hzero, List.drop_zero]

/-- Evicting after appending to an already-evicted state gives the same
trailing window as evicting the whole stream at once. -/
lemma drop_append_drop (cap : Nat) (S b : List α) :
    (S.drop (S.length - cap) ++ b).drop ((S.drop (S.length - cap) ++ b).length - cap)
      = (S ++ b).drop ((S ++ b).length - cap) := by
  have h2 : (S.take (S.length - cap) ++ (S.drop (S.length - cap) ++ b)).length - cap
      = (S.take (S.length - cap)).length
        + ((S.drop (S.length - cap) ++ b).length - cap) := by
    simp only [List.length_append, List.length_take, List.length_drop]
    omega
  conv_rhs => rw [← List.take_append_drop (S.length - cap) S, List.append_assoc]
  rw [h2, List.drop_append]

/-- Folding append batches over an evicted state tracks the trailing window
of the whole sample stream. -/
lemma appendBatches_drop (cap : Nat) (batches : List (List α)) (S : List α) :
    appendBatches cap batches (S.drop (S.length - cap))
      = (S ++ batches.flatten).drop ((S ++ batches.flatten).length - cap) := by
  induction batches generalizing S with
  | nil => simp [appendBatches]
  | cons b bs ih =>
    have hstep : fifoAppendBlock cap (S.drop (S.length - cap)) b
        = (S ++ b).drop ((S ++ b).length - cap) := by
      rw [fifoAppendBlock, evictFront_eq_drop, drop_append_drop]
    calc appendBatches cap (b :: bs) (S.drop (S.length - cap))
        = appendBatches cap bs ((S ++ b).drop ((S ++ b).length - cap)) := by
          simp only [appendBatches, List.foldl_cons, hstep]
      _ = ((S ++ b) ++ bs.flatten).drop (((S ++ b) ++ bs.flatten).length - cap) := ih (S ++ b)
      _ = (S ++ (b :: bs).flatten).drop ((S ++ (b :: bs).flatten).length - cap) := by
          simp [List.append_assoc]

/-- C4: after any sequence of append batches (each one followed by the
front-eviction pass), the history holds exactly the trailing window of the
full sample stream: occupancy is `min cap total`, the retained samples are
the most recently appended ones in their original relative order, and in
particular five samples appended into a buffer capped at 3 leave exactly
the last three, in order. -/
theorem history_trailing_window (cap : Nat) (batches : List (List Int)) :
    (appendBatches cap batches []).length = min cap batches.flatten.length ∧
    appendBatches cap batches [] = batches.flatten.drop (batches.flatten.length - cap) ∧
    appendBatches 3 [[1, 2, 3, 4, 5]] ([] : List Int) = [3, 4, 5] := by
  have hmain : appendBatches cap batches ([] : List Int)
      = batches.flatten.drop (batches.flatten.length - cap) := by
    have h := appendBatches_drop cap batches ([] : List Int)
    simpa using h
  refine ⟨?_, hmain, by rfl⟩
  rw [hmain, List.length_drop]
  omega

/-! ## History capacity versus device sample rate -/

/-- The history duration the cap is meant to represent: the comment at
line 19 reads "capped at 3 seconds of audio". -/
def maxSecondsHistory : Nat := 3

/-- The eviction bound the consumer loop uses for a session opened at
device sample rate `sampleRate`: `main` opens the stream at
`fs = di->defaultSampleRate` (line 134), but the eviction loop (line 179)
compares `g_fifo.size()` against the compile-time constant `FIFO_MAX`,
so the bound does not depend on the opened stream's rate. -/
def evictionBound (sampleRate : Nat) : Nat := FIFO_MAX

/-- C5 counterexample: for a device whose default rate is 48000 Hz the
eviction bound is not `sampleRate * maxSeconds`: the code caps at
`44100 * 3 = 132300` entries, not `48000 * 3 = 144000`. -/
theorem evictionBound_not_rate_scaled :
    ¬ evictionBound 48000 = 48000 * maxSecondsHistory := by decide

/-- C5 amended: the history eviction bound is the fixed constant
`44100 * 3 = 132300` entries whatever the device sample rate is, and it
equals `sampleRate * maxSeconds` exactly when that rate is 44100 Hz. -/
theorem evictionBound_constant (sampleRate : Nat) :
    evictionBound sampleRate = 132300 ∧
    (evictionBound sampleRate = sampleRate * maxSecondsHistory ↔ sampleRate = 44100) := by
  constructor
  · rfl
  · simp only [evictionBound, FIFO_MAX, maxSecondsHistory]
    omega

/-! ## Capture producer: `paCallback` (lines 76-93) -/

/-- The PortAudio stream-callback result codes a callback can return. -/
inductive PaResult where
  | paContinue
  | paComplete
  | paAbort
deriving Repr, DecidableEq

/-- What one invocation of the capture callback does: the code it returns
to the backend, the ring state it leaves behind, and whether it recorded
the backend's overflow flag anywhere for diagnostics. -/
structure CallbackEffect where
  ret : PaResult
  ring : spscRing
  overflowLogged : Bool
deriving Repr, DecidableEq

/-- `static int paCallback(...)` (lines 76-93). `input` carries the samples
behind the input pointer (`none` for null); `frames` is the period's frame
count; `overflowFlag` is whether `statusFlags & paInputOverflow` is
nonzero. The `if` testing the overflow flag (lines 80-83) has an empty
body, so nothing is recorded (`overflowLogged` is never set). A period
with `frames != FRAMES_PER_BLOCK` or null input returns `paContinue`
without touching any state (lines 84-87); otherwise the samples are
memcpy'd into a block and pushed (lines 89-91: a full ring increments
`dropped` inside `push`), and `paContinue` is returned (line 92). -/
def paCallback (input : Option (List Int)) (frames : Nat) (overflowFlag : Bool)
    (ring : spscRing) : CallbackEffect :=
  if frames ≠ FRAMES_PER_BLOCK ∨ input = none then
    ⟨PaResult.paContinue, ring, false⟩
  else
    ⟨PaResult.paContinue, (ring.push (input.getD [])).2, false⟩

/-- C6 counterexample: a well-formed period delivered with the overflow
flag raised leaves no diagnostic record of the overflow — the branch at
lines 80-83 is empty, so the flag is neither logged nor counted. -/
theorem overflow_not_recorded :
    ¬ (paCallback (some blockZero) FRAMES_PER_BLOCK true spscRing.init).overflowLogged = true := by
  decide

/-- C6 amended: on a well-formed period with the backend's overflow flag
raised, the callback still copies the samples into a block and attempts the
push, and returns `paContinue`, but it records nothing about the overflow. -/
theorem overflow_best_effort_push (samples : List Int) (ring : spscRing) :
    paCallback (some samples) FRAMES_PER_BLOCK true ring
      = ⟨PaResult.paContinue, (ring.push samples).2, false⟩ := by
  simp [paCallback]

/-- C7: a period with the wrong frame count or a null input pointer is
skipped without error: the callback returns `paContinue` and the ring —
slots, both indices, and the dropped counter — is left untouched. -/
theorem malformed_period_no_mutation (input : Option (List Int)) (frames : Nat)
    (overflowFlag : Bool) (ring : spscRing)
    (h : frames ≠ FRAMES_PER_BLOCK ∨ input = none) :
    paCallback input frames overflowFlag ring = ⟨PaResult.paContinue, ring, false⟩ := by
  simp only [paCallback, if_pos h]

/-- Witness for C7: a null-input period of 256 frames against the initial
ring is skipped with no mutation. -/
theorem malformed_period_no_mutation_witness :
    paCallback none 256 false spscRing.init
      = ⟨PaResult.paContinue, spscRing.init, false⟩ :=
  malformed_period_no_mutation none 256 false spscRing.init (Or.inr rfl)

/-- C10: the capture callback returns `paContinue` on every invocation —
for every input pointer, frame count, overflow flag and ring state — and
never asks the backend to complete or abort the stream. -/
theorem paCallback_always_continue (input : Option (List Int)) (frames : Nat)
    (overflowFlag : Bool) (ring : spscRing) :
    (paCallback input frames overflowFlag ring).ret = PaResult.paContinue := by
  unfold paCallback
  split <;> rfl

/-! ## Consumer RMS computation (lines 160-170)

The `double` accumulation is idealized as exact (rounding-free) arithmetic
over `ℚ`, with the final `std::sqrt` as the real square root. -/

/-- `constexpr double scale = 1.0/32768.0` (line 162), as an exact
rational. -/
def rmsScale : ℚ := 1 / 32768

/-- The accumulation loop (lines 161-168): `double acc = 0.0;` then for
each sample `s` of the popped block, `double x = s * scale; acc += x * x;`. -/
def rmsAcc (blk : List Int) : ℚ :=
  blk.foldl (fun (acc : ℚ) (s : Int) => acc + ((s : ℚ) * rmsScale) * ((s : ℚ) * rmsScale)) 0

/-- The mean square `acc / blk.size()` (line 170), whose square root is the
reported RMS; the divisor is the length of the popped block itself. -/
def rmsSq (blk : List Int) : ℚ := rmsAcc blk / (blk.length : ℚ)

/-- The accumulation loop computes the sum of the squared normalized
samples. -/
lemma rmsAcc_eq_sum (blk : List Int) :
    rmsAcc blk = (blk.map (fun s : Int => ((s : ℚ) / 32768) ^ 2)).sum := by
  suffices h : ∀ a : ℚ,
      blk.foldl (fun (acc : ℚ) (s : Int) => acc + ((s : ℚ) * rmsScale) * ((s : ℚ) * rmsScale)) a
        = a + (blk.map (fun s : Int => ((s : ℚ) / 32768) ^ 2)).sum by
    simpa using h 0
  induction blk with
  | nil => intro a; simp
  | cons x t ih =>
    intro a
    rw [List.foldl_cons, List.map_cons, List.sum_cons, ih]
    have hx : ((x : ℚ) * rmsScale) * ((x : ℚ) * rmsScale) = ((x : ℚ) / 32768) ^ 2 := by
      show ((x : ℚ) * (1 / 32768)) * ((x : ℚ) * (1 / 32768)) = ((x : ℚ) / 32768) ^ 2
      ring
    rw [hx]
    ring

/-- C8: the RMS computed for a popped block of `N` samples is
`sqrt((Σ (s/32768)^2) / N)` with the divisor exactly the length of the
block popped, and the RMS of an all-zero block is exactly 0. -/
theorem rms_formula_and_zero :
    (∀ blk : List Int,
      Real.sqrt ((rmsSq blk : ℚ) : ℝ)
        = Real.sqrt ((((blk.map (fun s : Int => ((s : ℚ) / 32768) ^ 2)).sum : ℚ) : ℝ)
            / (blk.length : ℝ))) ∧
    (∀ n : Nat, Real.sqrt ((rmsSq (List.replicate n 0) : ℚ) : ℝ) = 0) := by
  have hsq : ∀ blk : List Int, ((rmsSq blk : ℚ) : ℝ)
      = (((blk.map (fun s : Int => ((s : ℚ) / 32768) ^ 2)).sum : ℚ) : ℝ) / (blk.length : ℝ) := by
    intro blk
    rw [rmsSq, rmsAcc_eq_sum]
    push_cast
    ring
  refine ⟨fun blk => by rw [hsq], fun n => ?_⟩
  have hz : rmsSq (List.replicate n 0) = 0 := by
    rw [rmsSq, rmsAcc_eq_sum]
    simp
  rw [hz]
  simp

/-! ## Consumer loop control flow (lines 150-198) -/

/-- The session duration: the loop breaks once
`duration_cast<seconds>(now - t0).count() >= 5` (line 193). -/
def SESSION_SECONDS : Nat := 5

/-- The observable control-flow effects of one iteration of the consumer
`for (;;)` loop: whether it slept, whether it reached the session-timer
comparison, and whether it broke out of the loop. -/
structure IterEffect where
  slept : Bool
  timerChecked : Bool
  breaks : Bool
deriving Repr, DecidableEq

/-- One iteration of the consumer loop (lines 150-198), as a function of
whether `g_rb.pop(blk)` succeeded and of the elapsed whole seconds since
`t0` when the iteration reads the clock. On a failed pop (line 152) the
loop sleeps 1 ms (line 154) and starts over — the session-timer comparison
at line 193 sits inside the `else` branch and is not reached. On a
successful pop the block is processed, the timer is compared, and the loop
breaks iff the session duration has elapsed (lines 193-196). -/
def consumerIter (popOk : Bool) (elapsedSec : Nat) : IterEffect :=
  if popOk then ⟨false, true, decide (SESSION_SECONDS ≤ elapsedSec)⟩
  else ⟨true, false, false⟩

/-- C9 counterexample: an iteration whose pop finds the buffer empty never
reaches the session-timer check — even 10 s into the 5 s session the
iteration does not evaluate the termination condition. -/
theorem timer_unchecked_on_empty_pop :
    ¬ (consumerIter false 10).timerChecked = true := by decide

/-- C9 amended: the consumer loop terminates via the fixed session timer,
but the timer check is a polling check reached only after successful pops:
an iteration checks the timer iff its pop succeeded, sleeps iff it found
the buffer empty, and breaks exactly on a successful pop at or after the
session duration. -/
theorem consumer_timer_polled_after_success (popOk : Bool) (elapsedSec : Nat) :
    (consumerIter popOk elapsedSec).timerChecked = popOk ∧
    (consumerIter popOk elapsedSec).slept = !popOk ∧
    (consumerIter popOk elapsedSec).breaks
      = (popOk && decide (SESSION_SECONDS ≤ elapsedSec)) := by
  cases popOk <;> simp [consumerIter]

end AudioProc
